import Mathlib

/-!
# Verification of the RAG-MCP retrieval ranking and chunking core

Shallow embedding of the retrieval ranking engine
(`src/dist/tools/SearchContextTool.js`), the cosine similarity helper of
`src/dist/services/EmbeddingService.js`, the configuration loader of
`src/src/server.ts`, and the character-window re-chunker of
`src/src/tools/IndexSourceTool.ts` (`rechunkDocumentation`).

Modelling conventions:
* JavaScript numbers are modelled as exact rationals (`ℚ`); `Math.sqrt` is
  kept abstract as a function parameter `sq : ℚ → ℚ` because no verified
  property depends on its values (theorems that need facts about the square
  root take them as explicit hypotheses such as `sq 0 = 0`).
* JavaScript strings are modelled as Lean `String`s, `s.length` counting
  characters; `"".includes`, `toLowerCase`, `split(/\s+/)` and `slice` are
  modelled below.
* `Array.prototype.sort` with a score comparator is modelled by Mathlib's
  stable `List.insertionSort` (the ECMAScript spec mandates a stable sort
  consistent with the comparator).
* The JS `Set` of unused MMR indices iterates in insertion order, which is
  ascending index order and is preserved by deletion; it is modelled as an
  ascending `List ℕ` with `List.erase`.
* Fallible code returns `Except`; absent optional inputs are `Option`.
-/

/-! ## JavaScript string primitives -/

/-- Tests whether `n` is a prefix of the character list `h`. -/
def listStartsWith : List Char → List Char → Bool
  | [], _ => true
  | _ :: _, [] => false
  | a :: as, b :: bs => a == b && listStartsWith as bs

/-- Tests whether `n` occurs as a contiguous run inside the character list `h`. -/
def listContains (n : List Char) : List Char → Bool
  | [] => n.isEmpty
  | b :: bs => listStartsWith n (b :: bs) || listContains n bs

/-- Models `h.includes(n)` for JS strings: `n` occurs as an infix of `h`. -/
def strIncludes (h n : String) : Bool :=
  listContains n.toList h.toList

/-- Models `s.toLowerCase()` (ASCII-adequate). -/
def jsToLower (s : String) : String :=
  String.mk (s.toList.map Char.toLower)

/-- Whitespace characters recognised by the regex `\s` (the ones relevant
to this code base). -/
def isWsChar (c : Char) : Bool :=
  c == ' ' || c == '\t' || c == '\n' || c == '\r'

/-- Worker for `splitWs`: the `prevWs` flag records whether the previous
character belonged to a whitespace run (runs act as a single separator). -/
def splitWsGo : List Char → List Char → Bool → List String
  | [], cur, _ => [String.mk cur.reverse]
  | c :: cs, cur, prevWs =>
    if isWsChar c then
      if prevWs then splitWsGo cs [] true
      else String.mk cur.reverse :: splitWsGo cs [] true
    else splitWsGo cs (c :: cur) false

/-- Models `s.split(/\s+/)` for JS strings: split on whitespace runs, keeping the
leading/trailing empty fields JS produces. -/
def splitWs (s : String) : List String :=
  splitWsGo s.toList [] false

/-- Models `s.slice(a, b)` for JS strings (with `0 ≤ a ≤ b`). -/
def jsSlice (s : String) (a b : ℕ) : String :=
  String.mk ((s.toList.drop a).take (b - a))

/-- JS truthiness of an optional string (`undefined` and `""` are falsy). -/
def jsTruthyStr : Option String → Bool
  | none => false
  | some s => !(s == "")

/-- JS `x || d` for an optional number input with default `d` (`0` is falsy
and also replaced by the default). -/
def jsOr (n : Option ℕ) (d : ℕ) : ℕ :=
  match n with
  | none => d
  | some m => if m = 0 then d else m

/-! ## Data model (`src/dist/types`, result records of `SearchContextTool`) -/

/-- Metadata stored with each vector in the index, as read back by
`queryVectors` (the fields `SearchContextTool` consumes). -/
structure VectorMetadata where
  content : String
  sourceUrl : String
  type : String
  sourcePath : Option String
  sourceTitle : Option String
  language : Option String
  sectionLabel : Option String
  headingLevel : Option ℕ
deriving DecidableEq, Inhabited

/-- One candidate match returned by the oversampled vector query.
`values = []` models an absent raw-embedding array. -/
structure VectorResult where
  score : ℚ
  values : List ℚ
  metadata : VectorMetadata
deriving DecidableEq, Inhabited

/-- The `source` sub-record of a search result. -/
structure SearchSource where
  url : String
  type : String
  path : Option String
  title : Option String
deriving DecidableEq, Inhabited

/-- The `metadata` sub-record of a search result
(`section` is a Lean keyword, rendered `sectionLabel`). -/
structure SearchMetadata where
  language : Option String
  sectionLabel : Option String
  headingLevel : Option ℕ
deriving DecidableEq, Inhabited

/-- A ranked search result as returned to the caller. -/
structure SearchResult where
  content : String
  source : SearchSource
  metadata : SearchMetadata
  score : ℚ
deriving DecidableEq, Inhabited

/-- The inputs of the `search_context` tool that the ranking code reads,
plus `maxPerSource` and `dedupe`, which the input schema declares (with
defaults 2 and `true`) but which `execute` never reads. -/
structure SearchInput where
  query : String
  maxResults : Option ℕ := none
  threshold : Option ℚ := none
  minResults : Option ℕ := none
  mmrLambda : Option ℚ := none
  maxPerSource : Option ℕ := none
  dedupe : Option Bool := none
  lowerThresholdOnFewResults : Option Bool := none
deriving DecidableEq, Inhabited

/-! ## Cosine similarity

`SearchContextTool.cosine` iterates `i < min(a.length, b.length)`, so all
three accumulators range over the zipped prefix. -/

/-- Sum `Σ a[i]*b[i]` over the common prefix. -/
def dotZip (a b : List ℚ) : ℚ :=
  ((a.zip b).map (fun p => p.1 * p.2)).sum

/-- Sum `Σ a[i]*a[i]` over the common prefix (the `na` accumulator). -/
def naZip (a b : List ℚ) : ℚ :=
  ((a.zip b).map (fun p => p.1 * p.1)).sum

/-- Sum `Σ b[i]*b[i]` over the common prefix (the `nb` accumulator). -/
def nbZip (a b : List ℚ) : ℚ :=
  ((a.zip b).map (fun p => p.2 * p.2)).sum

/-- Squared Euclidean norm of a full vector. -/
def normSq (a : List ℚ) : ℚ :=
  (a.map (fun x => x * x)).sum

/-- Models `SearchContextTool.cosine(a, b)`: guarded cosine similarity, `0` when
either accumulated squared norm is zero. -/
def cosine (sq : ℚ → ℚ) (a b : List ℚ) : ℚ :=
  if naZip a b = 0 ∨ nbZip a b = 0 then 0
  else dotZip a b / (sq (naZip a b) * sq (nbZip a b))

/-- Models `EmbeddingService.cosineSimilarity(a, b)`: throws on a length mismatch,
otherwise guards on the square-rooted norms. -/
def cosineSimilarity (sq : ℚ → ℚ) (a b : List ℚ) : Except String ℚ :=
  if a.length ≠ b.length then
    Except.error "Embeddings must have the same length"
  else
    let normA := sq (normSq a)
    let normB := sq (normSq b)
    if normA = 0 ∨ normB = 0 then Except.ok 0
    else Except.ok (dotZip a b / (normA * normB))

/-! ## Maximal marginal relevance (`SearchContextTool.maximalMarginalRelevance`) -/

/-- The inner `for (const i of unused)` loop: running best index `b` with
running best score `s` (the JS code starts from `bestScore = -Infinity`, so
the first unused index always becomes the initial best). -/
def pickBestAux (score : ℕ → ℚ) : List ℕ → ℕ → ℚ → ℕ
  | [], b, _ => b
  | i :: is, b, s =>
    if s < score i then pickBestAux score is i (score i)
    else pickBestAux score is b s

/-- Best unused index for one MMR round; `none` iff `unused` is empty
(the JS `bestIdx === -1` break). -/
def pickBest (score : ℕ → ℚ) : List ℕ → Option ℕ
  | [] => none
  | i :: is => some (pickBestAux score is i (score i))

/-- The MMR objective `λ·relevance(i) − (1−λ)·max_{j∈selected} sim(i,j)`,
with redundancy `0` when nothing is selected yet. -/
def mmrScore (lambda : ℚ) (rel : ℕ → ℚ) (sim : ℕ → ℕ → ℚ) (selected : List ℕ)
    (i : ℕ) : ℚ :=
  let redundancy :=
    match selected with
    | [] => 0
    | j :: js => (js.map (sim i)).foldl max (sim i j)
  lambda * rel i - (1 - lambda) * redundancy

/-- The `while (selected.length < min(k, n))` loop, with the remaining
iteration count as fuel. -/
def mmrLoop (lambda : ℚ) (rel : ℕ → ℚ) (sim : ℕ → ℕ → ℚ) :
    ℕ → List ℕ → List ℕ → List ℕ
  | 0, selected, _ => selected
  | fuel + 1, selected, unused =>
    match pickBest (mmrScore lambda rel sim selected) unused with
    | none => selected
    | some b => mmrLoop lambda rel sim fuel (selected ++ [b]) (unused.erase b)

/-- Models `SearchContextTool.maximalMarginalRelevance(candidates, query, λ, k)`:
returns the selected candidate indices in selection order. -/
def maximalMarginalRelevance (sq : ℚ → ℚ) (candidates : List (List ℚ))
    (query : List ℚ) (lambda : ℚ) (k : ℕ) : List ℕ :=
  let relScores := candidates.map (fun v => cosine sq v query)
  let rel := fun i => relScores.getD i 0
  let sim := fun i j => cosine sq (candidates.getD i []) (candidates.getD j [])
  mmrLoop lambda rel sim (min k candidates.length) [] (List.range candidates.length)

/-! ## Conversion and the heuristic re-scoring fallback -/

/-- One entry of `convertToSearchResults`: project a vector match into the
display shape, keeping the raw score. -/
def convertOne (v : VectorResult) : SearchResult :=
  { content := v.metadata.content
    source :=
      { url := v.metadata.sourceUrl
        type := if v.metadata.type == "code" || v.metadata.type == "readme"
                then "github" else "documentation"
        path := v.metadata.sourcePath
        title := v.metadata.sourceTitle }
    metadata :=
      { language := v.metadata.language
        sectionLabel := v.metadata.sectionLabel
        headingLevel := v.metadata.headingLevel }
    score := v.score }

/-- Models `SearchContextTool.convertToSearchResults`. -/
def convertToSearchResults (vectorResults : List VectorResult) : List SearchResult :=
  vectorResults.map convertOne

/-- Models `SearchContextTool.calculateAdjustedScore(result, query)`: bounded
multiplicative boosts for content length, code/question term alignment,
lexical overlap and a structural section label, capped at `1`. -/
def calculateAdjustedScore (result : SearchResult) (query : String) : ℚ :=
  let s0 := result.score
  let contentLength := result.content.length
  let s1 := if contentLength > 500 then s0 * (11 / 10)
            else if contentLength < 100 then s0 * (9 / 10) else s0
  let codeTerms := ["function", "class", "method", "implementation", "code", "api", "library"]
  let hasCodeTerms := codeTerms.any
    (fun term => strIncludes (jsToLower query) term || strIncludes (jsToLower result.content) term)
  let s2 := if hasCodeTerms && (result.source.type == "github") then s1 * (12 / 10) else s1
  let questionWords := ["how", "what", "why", "when", "where", "guide", "tutorial", "documentation"]
  let hasQuestionWords := questionWords.any (fun w => strIncludes (jsToLower query) w)
  let s3 := if hasQuestionWords && (result.source.type == "documentation")
            then s2 * (115 / 100) else s2
  let queryWords := splitWs (jsToLower query)
  let contentLower := jsToLower result.content
  let exactMatches := (queryWords.filter (fun w => strIncludes contentLower w)).length
  let exactMatchBoost := 1 + ((exactMatches : ℚ) / (queryWords.length : ℚ)) * (1 / 10)
  let s4 := s3 * exactMatchBoost
  let s5 := if jsTruthyStr result.metadata.sectionLabel then s4 * (105 / 100) else s4
  min s5 1

/-- A search result paired with its adjusted score (the JS spread
`{...result, adjustedScore}`). -/
structure Scored where
  r : SearchResult
  adjustedScore : ℚ
deriving DecidableEq, Inhabited

/-- Models `scoredResults.sort((a, b) => b.adjustedScore - a.adjustedScore)`:
stable descending sort by adjusted score. -/
def sortByAdjusted (l : List Scored) : List Scored :=
  List.insertionSort (fun a b => b.adjustedScore ≤ a.adjustedScore) l

/-- First pass of `diversifyResults`: keep a result while its source URL has
been used fewer than 3 times. Results carry their original index so that
the JS reference-identity test `diversified.includes(r)` can be modelled. -/
def divPass : List (ℕ × Scored) → List (ℕ × Scored) → (String → ℕ) → List (ℕ × Scored)
  | [], acc, _ => acc
  | p :: ps, acc, counts =>
    let key := p.2.r.source.url
    let c := counts key
    if c < 3 then
      divPass ps (acc ++ [p]) (fun s => if s == key then c + 1 else counts s)
    else divPass ps acc counts

/-- Models `SearchContextTool.diversifyResults(results)`: per-source cap of 3
(hardcoded), then, if anything was dropped and fewer than 10 survive,
backfill from the remaining results up to 10 total. -/
def diversifyResults (results : List Scored) : List Scored :=
  let idxd := results.enum
  let diversified := divPass idxd [] (fun _ => 0)
  let final :=
    if diversified.length < idxd.length ∧ diversified.length < 10 then
      let remaining := idxd.filter (fun p => ¬ diversified.any (fun q => q.1 = p.1))
      let additionalCount := min remaining.length (10 - diversified.length)
      diversified ++ remaining.take additionalCount
    else diversified
  final.map Prod.snd

/-- Models `SearchContextTool.rankAndDiversifyResults(results, query)`: heuristic
re-scoring, stable descending sort, per-source diversification, then
projection back to the original result records (raw scores). -/
def rankAndDiversifyResults (results : List SearchResult) (query : String) :
    List SearchResult :=
  let scoredResults := results.map (fun r => Scored.mk r (calculateAdjustedScore r query))
  let sorted := sortByAdjusted scoredResults
  let diversified := diversifyResults sorted
  diversified.map (fun s => s.r)

/-! ## Adaptive thresholding and the ranking entry point
(`SearchContextTool.execute`, lines 94–122) -/

/-- Models `vectorResults.filter(r => (r.score ?? 0) >= cutoff)`. -/
def firstFilter (vectorResults : List VectorResult) (cutoff : ℚ) : List VectorResult :=
  vectorResults.filter (fun r => cutoff ≤ r.score)

/-- The fixed fallback values of the descending threshold ladder. -/
def fallbackThresholds : List ℚ :=
  [6 / 10, 5 / 10, 4 / 10, 3 / 10, 2 / 10]

/-- The `for (const t of thresholds.slice(1))` loop: refilter at each
fallback threshold, stopping at the first that reaches `m` candidates; the
last filtering survives when none does. -/
def ladderLoop (vectorResults : List VectorResult) (m : ℕ) :
    List ℚ → List VectorResult → List VectorResult
  | [], cur => cur
  | t :: ts, _ =>
    let f := firstFilter vectorResults t
    if m ≤ f.length then f else ladderLoop vectorResults m ts f

/-- Local adaptive thresholding of `execute`: requested threshold first,
the fallback ladder when adaptive relaxation is on and too few pass, and
the top `baseMaxResults` raw candidates when everything else is empty. -/
def thresholdStage (vectorResults : List VectorResult) (input : SearchInput) :
    List VectorResult :=
  let baseMaxResults := jsOr input.maxResults 10
  let minResults := max 1 (input.minResults.getD 5)
  let allowAdaptive := input.lowerThresholdOnFewResults ≠ some false
  let first := firstFilter vectorResults (input.threshold.getD (7 / 10))
  let filtered :=
    if allowAdaptive ∧ first.length < minResults then
      ladderLoop vectorResults (min minResults baseMaxResults) fallbackThresholds first
    else first
  if filtered.length = 0 then vectorResults.take baseMaxResults else filtered

/-- The ranking core of `SearchContextTool.execute`: adaptive thresholding,
then MMR when every surviving candidate carries raw vector values, else the
heuristic re-scoring fallback. Takes the oversampled `vectorResults` as the
candidate supplier's output. -/
def searchRank (sq : ℚ → ℚ) (vectorResults : List VectorResult)
    (input : SearchInput) (queryEmbedding : List ℚ) : List SearchResult :=
  let baseMaxResults := jsOr input.maxResults 10
  let filteredVectors := thresholdStage vectorResults input
  let searchResults := convertToSearchResults filteredVectors
  let haveValues := filteredVectors.all (fun v => !v.values.isEmpty)
  if haveValues then
    let k := min baseMaxResults searchResults.length
    let lambda := max 0 (min 1 (input.mmrLambda.getD (1 / 2)))
    let selectedIdxs :=
      maximalMarginalRelevance sq (filteredVectors.map (fun v => v.values))
        queryEmbedding lambda k
    selectedIdxs.filterMap (fun i => searchResults.get? i)
  else
    rankAndDiversifyResults searchResults input.query

/-! ## Configuration loading (`ScoutMCPServer.loadConfiguration`) -/

/-- The configuration record assembled by `loadConfiguration`. Numeric
fields are `Option ℕ` (`none` models a `NaN` from `parseInt`). -/
structure ScoutConfig where
  apiKey : String
  projectId : String
  apiUrl : String
  maxFileSize : Option ℕ
  maxChunkSize : Option ℕ
  chunkOverlap : Option ℕ
  batchSize : Option ℕ
  githubToken : Option String
deriving DecidableEq, Inhabited

/-- Models `!process.env[name]`: missing or empty environment value. -/
def envFalsy (env : String → Option String) (k : String) : Bool :=
  match env k with
  | none => true
  | some s => s == ""

/-- Models `process.env[k] || d`. -/
def envOr (env : String → Option String) (k : String) (d : String) : String :=
  match env k with
  | none => d
  | some s => if s == "" then d else s

/-- Decimal-digit accumulator for `parseDec`. -/
def parseDecGo : List Char → ℕ → Option ℕ
  | [], acc => some acc
  | c :: cs, acc =>
    if '0' ≤ c ∧ c ≤ '9' then parseDecGo cs (acc * 10 + (c.toNat - '0'.toNat))
    else none

/-- Models `parseInt(s)` for the plain decimal strings this configuration uses;
`none` models `NaN`. -/
def parseDec (s : String) : Option ℕ :=
  match s.toList with
  | [] => none
  | l => parseDecGo l 0

/-- Models `ScoutMCPServer.loadConfiguration` (`src/src/server.ts`, lines 91–107):
fails only when `SCOUT_API_KEY` or `SCOUT_PROJECT_ID` is missing; numeric
values are parsed with defaults and no cross-field validation is applied. -/
def loadConfiguration (env : String → Option String) : Except String ScoutConfig :=
  let missingVars := ["SCOUT_API_KEY", "SCOUT_PROJECT_ID"].filter (envFalsy env)
  if missingVars ≠ [] then
    Except.error "Missing required environment variables"
  else
    Except.ok
      { apiKey := (env "SCOUT_API_KEY").getD ""
        projectId := (env "SCOUT_PROJECT_ID").getD ""
        apiUrl := envOr env "SCOUT_API_URL" "https://scout-mauve-nine.vercel.app"
        maxFileSize := parseDec (envOr env "MAX_FILE_SIZE" "1048576")
        maxChunkSize := parseDec (envOr env "CHUNK_SIZE" "8192")
        chunkOverlap := parseDec (envOr env "CHUNK_OVERLAP" "200")
        batchSize := parseDec (envOr env "BATCH_SIZE" "100")
        githubToken := env "GITHUB_TOKEN" }

/-! ## Character-window re-chunking
(`IndexSourceTool.rechunkDocumentation`, `src/src/tools/IndexSourceTool.ts`
lines 352–383) -/

/-- A documentation page handed to the re-chunker. -/
structure DocPage where
  url : String
  title : String
  content : String
  headings : List String := []
  breadcrumbs : List String := []
deriving DecidableEq, Inhabited

/-- The metadata record of an emitted chunk. -/
structure ChunkMeta where
  size : ℕ
  hash : String
  sectionLabel : Option String
deriving DecidableEq, Inhabited

/-- A chunk emitted by `rechunkDocumentation`. -/
structure ChunkOut where
  id : String
  content : String
  type : String
  source : SearchSource
  metadata : ChunkMeta
deriving DecidableEq, Inhabited

/-- Computes `approxChars = Math.max(128, Math.floor(tokensPerChunk * 4))` for the
integral token budgets this tool receives (`floor` is then the identity). -/
def approxCharsOf (tokensPerChunk : ℕ) : ℕ :=
  max 128 (tokensPerChunk * 4)

/-- One advancement of the window position: `end = min(len, pos + approxChars)`;
`pos = end - overlap` with `overlap = Math.floor(approxChars * 0.1)`, reset to
`end` when the subtraction is not positive. -/
def windowStep (len approxChars pos : ℕ) : ℕ :=
  let e := min len (pos + approxChars)
  let ov := approxChars / 10
  if e ≤ ov then e else e - ov

/-- The `for (let pos = 0; pos < page.content.length; )` loop of
`rechunkDocumentation`, emitting one chunk per iteration. The loop does not
terminate on its own for every input, so it is indexed by fuel: `run fuel`
produces the first `fuel` iterations. -/
def rechunkPage (docUrl : String) (page : DocPage) (approxChars : ℕ) :
    ℕ → ℕ → ℕ → List ChunkOut
  | 0, _, _ => []
  | fuel + 1, pos, idx =>
    if pos < page.content.length then
      let e := min page.content.length (pos + approxChars)
      let slice := jsSlice page.content pos e
      { id := docUrl ++ ":" ++ page.url ++ "_" ++ toString idx
        content := slice
        type := "documentation"
        source := { url := docUrl, type := "documentation",
                    path := some page.url, title := some page.title }
        metadata := { size := slice.length, hash := "n/a", sectionLabel := none } }
        :: rechunkPage docUrl page approxChars fuel
             (windowStep page.content.length approxChars pos) (idx + 1)
    else []

/-- Models `IndexSourceTool.rechunkDocumentation(docContent, tokensPerChunk)`,
fuel-indexed per page (the chunk id uses the `generateChunkId` fallback
string, the only part visible in this repository). -/
def rechunkDocumentation (fuel : ℕ) (docUrl : String) (pages : List DocPage)
    (tokensPerChunk : ℕ) : List ChunkOut :=
  let approxChars := approxCharsOf tokensPerChunk
  pages.flatMap (fun page => rechunkPage docUrl page approxChars fuel 0 0)

/-! ## Specification-side ordering for diversity non-degeneracy -/

/-- Modelled from the spec: the strict-total "pure descending-relevance
order, stable by original candidate index" — index `i` precedes `j` when its
relevance is higher, or equal with the smaller original index. -/
def relOrder (f : ℕ → ℚ) (i j : ℕ) : Prop :=
  f j < f i ∨ (f i = f j ∧ i ≤ j)

instance (f : ℕ → ℚ) : DecidableRel (relOrder f) := fun i j => by
  unfold relOrder; infer_instance

/-- Modelled from the spec: candidate indices sorted into pure
descending-relevance order, ties broken by the original index. -/
def relevanceOrder (rel : List ℚ) : List ℕ :=
  List.insertionSort (relOrder (fun i => rel.getD i 0)) (List.range rel.length)

/-! ## Concrete inputs shared by the evaluation theorems -/

/-- Documentation-typed metadata with the given content, source URL and path. -/
def mkMeta (content url : String) (path : Option String) : VectorMetadata :=
  ⟨content, url, "documentation", path, none, none, none, none⟩

/-- A candidate with the given score, no stored vector values, and the given
metadata. -/
def mkVR (score : ℚ) (m : VectorMetadata) : VectorResult :=
  ⟨score, [], m⟩

/-- Candidate set for the threshold-monotonicity counterexample: five
candidates scoring `0.55` and eight scoring `0.52`. -/
def c5vrs : List VectorResult :=
  List.replicate 5 (mkVR (55 / 100) (mkMeta "" "A" none)) ++
  List.replicate 8 (mkVR (52 / 100) (mkMeta "" "A" none))

/-- A query input requesting threshold `t`, defaults everywhere else. -/
def c5inp (t : ℚ) : SearchInput :=
  { query := "q", threshold := some t }

/-- Environment for the configuration-validation check: required keys set,
`CHUNK_SIZE=100`, `CHUNK_OVERLAP=200`. -/
def c9env : String → Option String := fun s =>
  if s = "SCOUT_API_KEY" then some "k"
  else if s = "SCOUT_PROJECT_ID" then some "p"
  else if s = "CHUNK_SIZE" then some "100"
  else if s = "CHUNK_OVERLAP" then some "200" else none

/-- A 130-character documentation page. -/
def c10page : DocPage :=
  { url := "u", title := "t", content := String.mk (List.replicate 130 'a') }

/-- Two candidates from distinct sources, no stored vectors, scoring `0.8`. -/
def c1vrs : List VectorResult :=
  [mkVR (4 / 5) (mkMeta "" "A" none), mkVR (4 / 5) (mkMeta "" "B" none)]

/-- Input with `maxResults = 1`, adaptive relaxation disabled. -/
def c1input : SearchInput :=
  { query := "q", maxResults := some 1, lowerThresholdOnFewResults := some false }

/-- A candidate carrying content `""` at source path `"p"`; used twice to
form a pair with identical content (hence identical content hash) and
identical source path. -/
def c3v : VectorResult :=
  mkVR (4 / 5) (mkMeta "" "S" (some "p"))

/-- Input with `dedupe` explicitly `true` (also its schema default); adaptive
relaxation disabled to keep the threshold walk short. -/
def c3input : SearchInput :=
  { query := "q", dedupe := some true, lowerThresholdOnFewResults := some false }

/-- The duplicated candidate as it is returned to the caller. -/
def c3r : SearchResult :=
  ⟨"", ⟨"S", "documentation", some "p", none⟩, ⟨none, none, none⟩, 4 / 5⟩

/-- The spec scenario's candidate set: 20 candidates, 7 from source `A`,
7 from `B`, 6 from `C`, identical scores, no stored vectors. -/
def c2vrs : List VectorResult :=
  List.replicate 7 (mkVR (4 / 5) (mkMeta "" "A" none)) ++
  List.replicate 7 (mkVR (4 / 5) (mkMeta "" "B" none)) ++
  List.replicate 6 (mkVR (4 / 5) (mkMeta "" "C" none))

/-- Input with `maxResults = 5` and `maxPerSource = 2` as in the scenario. -/
def c2input : SearchInput :=
  { query := "q", maxResults := some 5, maxPerSource := some 2 }

/-- The source-`A` result record. -/
def c2rA : SearchResult := ⟨"", ⟨"A", "documentation", none, none⟩, ⟨none, none, none⟩, 4 / 5⟩

/-- The source-`B` result record. -/
def c2rB : SearchResult := ⟨"", ⟨"B", "documentation", none, none⟩, ⟨none, none, none⟩, 4 / 5⟩

/-- The source-`C` result record. -/
def c2rC : SearchResult := ⟨"", ⟨"C", "documentation", none, none⟩, ⟨none, none, none⟩, 4 / 5⟩

/-- The 20 scored results after heuristic re-scoring (all adjusted scores
equal, so the stable sort leaves the order unchanged). -/
def c2scored : List Scored :=
  List.replicate 7 (Scored.mk c2rA (18 / 25)) ++
  List.replicate 7 (Scored.mk c2rB (18 / 25)) ++
  List.replicate 6 (Scored.mk c2rC (18 / 25))

/-- The single candidate used by the C8 witness: score 0.8, stored vector
`[1]`. -/
def c8v : VectorResult :=
  ⟨4 / 5, [1], mkMeta "" "S" none⟩

/-! ## C9 and C10: the character-window re-chunker -/

/-- C9: the claim states that `overlapSize >= maxChunkSize` is rejected as a
fatal configuration error and that window advancement is explicitly guarded
so the window always advances. The code does neither: `loadConfiguration`
accepts `CHUNK_OVERLAP=200` with `CHUNK_SIZE=100` (its only check is for the
two required identity variables), and the window position of
`rechunkDocumentation` on a 130-character page with window 128 (overlap 12)
moves `0 → 116 → 118` and then stays at `118 < 130` forever — the
`pos <= 0` guard does not make the window advance. -/
theorem C9_overlap_accepted_window_stalls :
    loadConfiguration c9env =
      Except.ok ⟨"k", "p", "https://scout-mauve-nine.vercel.app",
        some 1048576, some 100, some 200, some 100, none⟩
    ∧ windowStep 130 128 0 = 116
    ∧ windowStep 130 128 116 = 118
    ∧ windowStep 130 128 118 = 118
    ∧ 118 < 130 := by
  refine ⟨rfl, rfl, rfl, rfl, by decide⟩

set_option maxRecDepth 40000 in
/-- C10: the claim allows only an explicit final remainder to be shorter
than the window. On a 130-character page with window 128 the emitted chunk
sizes for the first four loop iterations are `[128, 14, 12, 12]` — the
second chunk (size 14) and third chunk (size 12) are shorter than the
window yet not final — and the loop keeps emitting the same 12-character
tail chunk without bound (ten chunks within ten iterations), because the
window position stalls. Chunk size metadata does equal the content length,
shown here by listing both. -/
theorem C10_nonfinal_short_chunks :
    (rechunkDocumentation 4 "d" [c10page] 32).map (fun c => c.metadata.size) =
      [128, 14, 12, 12]
    ∧ (rechunkDocumentation 4 "d" [c10page] 32).map (fun c => c.content.length) =
      [128, 14, 12, 12]
    ∧ (rechunkDocumentation 10 "d" [c10page] 32).length = 10
    ∧ approxCharsOf 32 = 128 := by
  exact ⟨by decide, by decide, by decide, by decide⟩

/-! ## C7: cosine zero-norm behaviour -/

/-- The `na` accumulator over the common prefix is the full squared norm of
`a` when `a` is no longer than `b`. -/
theorem naZip_eq_normSq (a b : List ℚ) (h : a.length ≤ b.length) :
    naZip a b = normSq a := by
  unfold naZip normSq
  have hfst : (a.zip b).map Prod.fst = a := List.map_fst_zip a b h
  rw [show (fun p : ℚ × ℚ => p.1 * p.1) = ((fun x : ℚ => x * x) ∘ Prod.fst) from rfl,
    ← List.map_map, hfst]

/-- The `nb` accumulator over the common prefix is the full squared norm of
`b` when `b` is no longer than `a`. -/
theorem nbZip_eq_normSq (a b : List ℚ) (h : b.length ≤ a.length) :
    nbZip a b = normSq b := by
  unfold nbZip normSq
  have hsnd : (a.zip b).map Prod.snd = b := List.map_snd_zip a b h
  rw [show (fun p : ℚ × ℚ => p.2 * p.2) = ((fun x : ℚ => x * x) ∘ Prod.snd) from rfl,
    ← List.map_map, hsnd]

/-- A squared norm is nonnegative. -/
theorem normSq_nonneg (a : List ℚ) : 0 ≤ normSq a := by
  unfold normSq
  refine List.sum_nonneg ?_
  intro x hx
  rcases List.mem_map.1 hx with ⟨y, _, rfl⟩
  exact mul_self_nonneg y

/-- C7, counterexample: the claim promises that the cosine-similarity
function returns `0` — not an error — for every pair with a zero-norm
vector, but `EmbeddingService.cosineSimilarity` throws on the zero-norm
pair `[0]`, `[0, 0]` because the lengths differ. -/
theorem C7_length_mismatch_error :
    cosineSimilarity (fun x => x) [0] [0, 0] =
      Except.error "Embeddings must have the same length"
    ∧ normSq [(0 : ℚ)] = 0 := by
  refine ⟨rfl, by simp [normSq]⟩

/-- C7, amended: for equal-length vectors both cosine functions return `0`
(without error) whenever either vector has zero squared norm, and otherwise
return the dot product divided by the product of the (square-rooted) norms;
the hypotheses on `sq` are the relevant facts about the real square root. -/
theorem C7_cosine_zero_norm_guard (sq : ℚ → ℚ) (h0 : sq 0 = 0)
    (hpos : ∀ x : ℚ, 0 < x → 0 < sq x) (a b : List ℚ)
    (hlen : a.length = b.length) :
    ((normSq a = 0 ∨ normSq b = 0) →
      cosine sq a b = 0 ∧ cosineSimilarity sq a b = Except.ok 0)
    ∧ (normSq a ≠ 0 → normSq b ≠ 0 →
      cosine sq a b = dotZip a b / (sq (normSq a) * sq (normSq b))
      ∧ cosineSimilarity sq a b =
          Except.ok (dotZip a b / (sq (normSq a) * sq (normSq b)))) := by
  have hna : naZip a b = normSq a := naZip_eq_normSq a b (le_of_eq hlen)
  have hnb : nbZip a b = normSq b := nbZip_eq_normSq a b (le_of_eq hlen.symm)
  constructor
  · intro hz
    constructor
    · unfold cosine
      rw [hna, hnb, if_pos hz]
    · unfold cosineSimilarity
      rw [if_neg (by simp [hlen])]
      have hz' : sq (normSq a) = 0 ∨ sq (normSq b) = 0 := by
        rcases hz with hz | hz
        · exact Or.inl (by rw [hz, h0])
        · exact Or.inr (by rw [hz, h0])
      simp only [hz', if_pos]
  · intro ha hb
    have hapos : 0 < sq (normSq a) := hpos _ (lt_of_le_of_ne (normSq_nonneg a) (Ne.symm ha))
    have hbpos : 0 < sq (normSq b) := hpos _ (lt_of_le_of_ne (normSq_nonneg b) (Ne.symm hb))
    constructor
    · unfold cosine
      rw [hna, hnb, if_neg (by push_neg; exact ⟨ha, hb⟩)]
    · unfold cosineSimilarity
      rw [if_neg (by simp [hlen])]
      rw [if_neg (by push_neg; exact ⟨ne_of_gt hapos, ne_of_gt hbpos⟩)]

/-- Witness for C7's amended theorem at `sq = id`, `a = [0]`, `b = [0]`. -/
theorem C7_cosine_zero_norm_guard_witness :
    ((normSq [(0 : ℚ)] = 0 ∨ normSq [(0 : ℚ)] = 0) →
      cosine (fun x => x) [0] [0] = 0
      ∧ cosineSimilarity (fun x => x) [0] [0] = Except.ok 0)
    ∧ (normSq [(0 : ℚ)] ≠ 0 → normSq [(0 : ℚ)] ≠ 0 →
      cosine (fun x => x) [0] [0] =
        dotZip [0] [0] / ((fun x => x) (normSq [(0 : ℚ)]) * (fun x => x) (normSq [(0 : ℚ)]))
      ∧ cosineSimilarity (fun x => x) [0] [0] =
          Except.ok (dotZip [0] [0] /
            ((fun x => x) (normSq [(0 : ℚ)]) * (fun x => x) (normSq [(0 : ℚ)])))) :=
  C7_cosine_zero_norm_guard (fun x => x) rfl (fun _ h => h) [0] [0] rfl

/-! ## C5: threshold monotonicity -/

/-- C5, counterexample: raising the requested threshold from `0.55` to `0.7`
raises the number of candidates accepted by the thresholding stage from 5
to 13 on `c5vrs`, because the miss at `0.7` walks the fallback ladder down
to `0.5`, which admits the eight `0.52` candidates too. -/
theorem C5_threshold_ladder_not_monotone :
    (55 / 100 : ℚ) < 7 / 10
    ∧ (thresholdStage c5vrs (c5inp (55 / 100))).length = 5
    ∧ (thresholdStage c5vrs (c5inp (7 / 10))).length = 13 := by
  refine ⟨by norm_num, ?_, ?_⟩
  · simp only [thresholdStage, c5inp]
    norm_num [firstFilter, jsOr, ladderLoop, fallbackThresholds,
      c5vrs, mkVR, mkMeta, List.filter, List.replicate]
  · simp only [thresholdStage, c5inp]
    norm_num [firstFilter, jsOr, ladderLoop, fallbackThresholds,
      c5vrs, mkVR, mkMeta, List.filter, List.replicate, List.cons_ne_nil]
    simp

/-- C5, amended: the count of candidates passing the requested-threshold
filter itself (before the adaptive fallback ladder and before the
empty-result fallback) never increases when the threshold is raised. -/
theorem C5_firstFilter_antitone (vrs : List VectorResult) (t1 t2 : ℚ)
    (h : t1 ≤ t2) :
    (firstFilter vrs t2).length ≤ (firstFilter vrs t1).length := by
  unfold firstFilter
  refine List.Sublist.length_le (List.monotone_filter_right vrs ?_)
  intro v hv
  simp only [decide_eq_true_eq] at hv ⊢
  exact le_trans h hv

/-- Witness for C5's amended theorem on `c5vrs` at thresholds `0.55 ≤ 0.55`. -/
theorem C5_firstFilter_antitone_witness :
    (firstFilter c5vrs (55 / 100)).length ≤ (firstFilter c5vrs (55 / 100)).length :=
  C5_firstFilter_antitone c5vrs (55 / 100) (55 / 100) (le_refl _)

/-! ## Shared evaluation lemma for the heuristic fallback path -/

/-- Adjusted score of an empty-content documentation result for the
one-word query `"q"`: only the short-content penalty applies. -/
theorem calcAdj_plain (u : String) (p tt : Option String) (sc : ℚ) :
    calculateAdjustedScore ⟨"", ⟨u, "documentation", p, tt⟩, ⟨none, none, none⟩, sc⟩ "q"
      = min (sc * (9 / 10)) 1 := by
  have e0 : ("" : String).length = 0 := rfl
  have e1 : (["function", "class", "method", "implementation", "code", "api", "library"].any
      fun term => strIncludes (jsToLower "q") term || strIncludes (jsToLower "") term) = false := rfl
  have e2 : (["how", "what", "why", "when", "where", "guide", "tutorial", "documentation"].any
      fun w => strIncludes (jsToLower "q") w) = false := rfl
  have e3 : (splitWs (jsToLower "q")).filter (fun w => strIncludes (jsToLower "") w) = [] := rfl
  have e4 : (splitWs (jsToLower "q")).length = 1 := rfl
  simp only [calculateAdjustedScore, e0, e1, e2, e3, e4, jsTruthyStr]
  norm_num

/-! ## C1: result count bound -/

/-- C1: the claim bounds the final result list by `query.maxResults` in
both ranking paths, but the heuristic re-scoring fallback path never
truncates to `maxResults`: with `maxResults = 1` and two surviving
candidates without stored vectors, `searchRank` returns 2 results
(`diversifyResults` keeps every result within the per-source cap and the
caller never slices). -/
theorem C1_fallback_exceeds_maxResults :
    jsOr c1input.maxResults 10 = 1
    ∧ (searchRank (fun x => x) c1vrs c1input []).length = 2 := by
  refine ⟨rfl, ?_⟩
  have hts : thresholdStage c1vrs c1input = c1vrs := by
    simp only [thresholdStage, c1input]
    norm_num [firstFilter, jsOr, c1vrs, mkVR, mkMeta, List.filter]
  have hv : (c1vrs.all fun v => !v.values.isEmpty) = false := rfl
  have hc : convertToSearchResults c1vrs =
      [⟨"", ⟨"A", "documentation", none, none⟩, ⟨none, none, none⟩, 4 / 5⟩,
       ⟨"", ⟨"B", "documentation", none, none⟩, ⟨none, none, none⟩, 4 / 5⟩] := rfl
  have hadj : ∀ u : String, ∀ p tt : Option String,
      calculateAdjustedScore ⟨"", ⟨u, "documentation", p, tt⟩, ⟨none, none, none⟩, 4 / 5⟩ "q"
        = 18 / 25 := by
    intro u p tt
    rw [calcAdj_plain]
    norm_num
  simp only [searchRank]
  rw [hts, hc]
  simp only [hv, Bool.false_eq_true, if_false, c1input, rankAndDiversifyResults, List.map, hadj]
  norm_num [sortByAdjusted, List.insertionSort, List.orderedInsert,
    diversifyResults, divPass, List.enum, List.enumFrom]
  simp

/-! ## C3: deduplication -/

/-- C3: the claim says that with deduplication enabled (the default) at most
one of two candidates with identical content hash and source path reaches
the final list. The code declares the `dedupe` input but never implements
it: both copies of the identical candidate appear in the output. -/
theorem C3_duplicates_survive :
    c3input.dedupe = some true
    ∧ searchRank (fun x => x) [c3v, c3v] c3input [] = [c3r, c3r] := by
  refine ⟨rfl, ?_⟩
  have hts : thresholdStage [c3v, c3v] c3input = [c3v, c3v] := by
    simp only [thresholdStage, c3input]
    norm_num [firstFilter, jsOr, c3v, mkVR, mkMeta, List.filter]
  have hv : ([c3v, c3v].all fun v => !v.values.isEmpty) = false := rfl
  have hc : convertToSearchResults [c3v, c3v] = [c3r, c3r] := rfl
  have hadj : calculateAdjustedScore c3r "q" = 18 / 25 := by
    rw [show c3r = ⟨"", ⟨"S", "documentation", some "p", none⟩, ⟨none, none, none⟩, 4 / 5⟩ from rfl,
      calcAdj_plain]
    norm_num
  simp only [searchRank]
  rw [hts, hc]
  simp only [hv, Bool.false_eq_true, if_false, c3input, rankAndDiversifyResults, List.map, hadj]
  norm_num [sortByAdjusted, List.insertionSort, List.orderedInsert,
    diversifyResults, divPass, List.enum, List.enumFrom]

/-! ## C2: per-source capping scenario -/

/-- C2: the scenario claims at most 2 results per source and exactly 5
total. The code ignores the `maxPerSource = 2` input (the cap is hardcoded
to 3), never truncates to `maxResults = 5`, and backfills up to 10: the
output has 10 results, four of them from source `A`. -/
theorem C2_scenario_cap_and_count_violated :
    c2input.maxPerSource = some 2
    ∧ jsOr c2input.maxResults 10 = 5
    ∧ searchRank (fun x => x) c2vrs c2input [] =
        [c2rA, c2rA, c2rA, c2rB, c2rB, c2rB, c2rC, c2rC, c2rC, c2rA]
    ∧ ([c2rA, c2rA, c2rA, c2rB, c2rB, c2rB, c2rC, c2rC, c2rC, c2rA].filter
        (fun r => r.source.url == "A")).length = 4 := by
  refine ⟨rfl, rfl, ?_, by decide⟩
  have hts : thresholdStage c2vrs c2input = c2vrs := by
    simp only [thresholdStage, c2input]
    norm_num [firstFilter, jsOr, c2vrs, mkVR, mkMeta, List.filter, List.replicate]
  have hv : (c2vrs.all fun v => !v.values.isEmpty) = false := rfl
  have hc : convertToSearchResults c2vrs =
      List.replicate 7 c2rA ++ List.replicate 7 c2rB ++ List.replicate 6 c2rC := rfl
  have hadj : ∀ u : String, ∀ p tt : Option String,
      calculateAdjustedScore ⟨"", ⟨u, "documentation", p, tt⟩, ⟨none, none, none⟩, 4 / 5⟩ "q"
        = 18 / 25 := by
    intro u p tt
    rw [calcAdj_plain]
    norm_num
  have hsort : sortByAdjusted c2scored = c2scored := by
    norm_num [sortByAdjusted, List.insertionSort, List.orderedInsert, c2scored,
      c2rA, c2rB, c2rC, List.replicate]
  have hmain : searchRank (fun x => x) c2vrs c2input [] =
      (diversifyResults (sortByAdjusted c2scored)).map (fun s => s.r) := by
    simp only [searchRank]
    rw [hts, hc]
    simp only [hv, Bool.false_eq_true, if_false, c2input, rankAndDiversifyResults,
      List.map_append, List.map_replicate, c2rA, c2rB, c2rC, hadj, c2scored]
  rw [hmain, hsort]
  rw [show c2scored =
      List.replicate 7 (Scored.mk c2rA (18 / 25)) ++
      List.replicate 7 (Scored.mk c2rB (18 / 25)) ++
      List.replicate 6 (Scored.mk c2rC (18 / 25)) from rfl]
  exact rfl

/-! ## Structural lemmas about the heuristic fallback pipeline -/

/-- Everything `divPass` returns comes from its accumulator or its input. -/
theorem divPass_subset :
    ∀ (ps acc : List (ℕ × Scored)) (counts : String → ℕ) (p : ℕ × Scored),
      p ∈ divPass ps acc counts → p ∈ acc ∨ p ∈ ps := by
  intro ps
  induction ps with
  | nil => intro acc counts p hp; exact Or.inl hp
  | cons q qs ih =>
    intro acc counts p hp
    simp only [divPass] at hp
    by_cases hcount : counts q.2.r.source.url < 3
    · rw [if_pos hcount] at hp
      rcases ih _ _ p hp with hacc | hqs
      · rcases List.mem_append.1 hacc with h | h
        · exact Or.inl h
        · exact Or.inr (List.mem_cons.2 (Or.inl (List.mem_singleton.1 h)))
      · exact Or.inr (List.mem_cons.2 (Or.inr hqs))
    · rw [if_neg hcount] at hp
      rcases ih _ _ p hp with hacc | hqs
      · exact Or.inl hacc
      · exact Or.inr (List.mem_cons.2 (Or.inr hqs))

/-- The pass `divPass` only extends its accumulator. -/
theorem divPass_acc :
    ∀ (ps acc : List (ℕ × Scored)) (counts : String → ℕ),
      ∃ t, divPass ps acc counts = acc ++ t := by
  intro ps
  induction ps with
  | nil => intro acc counts; exact ⟨[], by rw [List.append_nil]; rfl⟩
  | cons q qs ih =>
    intro acc counts
    simp only [divPass]
    by_cases hcount : counts q.2.r.source.url < 3
    · rw [if_pos hcount]
      rcases ih (acc ++ [q]) _ with ⟨t, ht⟩
      exact ⟨q :: t, by rw [ht, List.append_assoc]; rfl⟩
    · rw [if_neg hcount]
      exact ih acc counts

/-- The second component of any entry of `l.enumFrom n` is an element of `l`. -/
theorem snd_mem_of_mem_enumFrom :
    ∀ (l : List Scored) (n : ℕ) (p : ℕ × Scored), p ∈ l.enumFrom n → p.2 ∈ l := by
  intro l
  induction l with
  | nil => intro n p hp; simp [List.enumFrom] at hp
  | cons x xs ih =>
    intro n p hp
    rcases List.mem_cons.1 hp with h | h
    · rw [h]; exact List.mem_cons_self x xs
    · exact List.mem_cons.2 (Or.inr (ih (n + 1) p h))

/-- Every result `diversifyResults` returns is one of its inputs. -/
theorem diversifyResults_subset (results : List Scored) (s : Scored)
    (hs : s ∈ diversifyResults results) : s ∈ results := by
  simp only [diversifyResults] at hs
  rcases List.mem_map.1 hs with ⟨p, hp, hps⟩
  have hpidx : p ∈ results.enum := by
    by_cases hcond :
        (divPass results.enum [] fun _ => 0).length < results.enum.length ∧
          (divPass results.enum [] fun _ => 0).length < 10
    · rw [if_pos hcond] at hp
      rcases List.mem_append.1 hp with h | h
      · rcases divPass_subset _ _ _ p h with habs | h
        · exact absurd habs (List.not_mem_nil p)
        · exact h
      · exact List.mem_of_mem_filter (List.mem_of_mem_take h)
    · rw [if_neg hcond] at hp
      rcases divPass_subset _ _ _ p hp with habs | h
      · exact absurd habs (List.not_mem_nil p)
      · exact h
  rw [← hps]
  exact snd_mem_of_mem_enumFrom results 0 p hpidx

/-- The pass `divPass` never returns the empty list when its accumulator is
non-empty. -/
theorem divPass_ne_nil_of_acc (ps acc : List (ℕ × Scored)) (counts : String → ℕ)
    (h : acc ≠ []) : divPass ps acc counts ≠ [] := by
  rcases divPass_acc ps acc counts with ⟨t, ht⟩
  rw [ht]
  intro habs
  rw [List.append_eq_nil] at habs
  exact h habs.1

/-- Applying `diversifyResults` to a non-empty list yields a non-empty list. -/
theorem diversifyResults_ne_nil (results : List Scored) (h : results ≠ []) :
    diversifyResults results ≠ [] := by
  rcases List.exists_cons_of_ne_nil h with ⟨x, xs, rfl⟩
  have hDne : divPass ((x :: xs).enum) [] (fun _ => 0) ≠ [] := by
    simp only [List.enum, List.enumFrom, divPass]
    rw [if_pos (by norm_num)]
    exact divPass_ne_nil_of_acc _ _ _ (by simp)
  simp only [diversifyResults]
  by_cases hcond :
      (divPass ((x :: xs).enum) [] fun _ => 0).length < ((x :: xs).enum).length ∧
        (divPass ((x :: xs).enum) [] fun _ => 0).length < 10
  · rw [if_pos hcond]
    intro habs
    rw [List.map_eq_nil_iff, List.append_eq_nil] at habs
    exact hDne habs.1
  · rw [if_neg hcond]
    intro habs
    rw [List.map_eq_nil_iff] at habs
    exact hDne habs

/-- Every element of the sorted list is one of the inputs, and conversely. -/
theorem mem_sortByAdjusted (l : List Scored) (s : Scored) :
    s ∈ sortByAdjusted l ↔ s ∈ l :=
  (List.perm_insertionSort _ l).mem_iff

/-- The stage `rankAndDiversifyResults` only reorders and drops: every output record
is one of the input records. -/
theorem rankAndDiversify_subset (results : List SearchResult) (query : String)
    (r : SearchResult) (hr : r ∈ rankAndDiversifyResults results query) :
    r ∈ results := by
  simp only [rankAndDiversifyResults] at hr
  rcases List.mem_map.1 hr with ⟨s, hs, hsr⟩
  have hs2 := diversifyResults_subset _ s hs
  have hs3 := (mem_sortByAdjusted _ s).1 hs2
  rcases List.mem_map.1 hs3 with ⟨r0, hr0, hr0s⟩
  rw [← hsr, ← hr0s]
  exact hr0

/-- Applying `rankAndDiversifyResults` to a non-empty input yields a non-empty list. -/
theorem rankAndDiversify_ne_nil (results : List SearchResult) (query : String)
    (h : results ≠ []) : rankAndDiversifyResults results query ≠ [] := by
  simp only [rankAndDiversifyResults]
  intro habs
  rw [List.map_eq_nil_iff] at habs
  refine diversifyResults_ne_nil _ ?_ habs
  intro hsort
  have hperm : List.Perm
      (sortByAdjusted (results.map fun r => Scored.mk r (calculateAdjustedScore r query)))
      (results.map fun r => Scored.mk r (calculateAdjustedScore r query)) :=
    List.perm_insertionSort _ _
  rw [hsort] at hperm
  have hmapnil := List.perm_nil.1 hperm.symm
  rw [List.map_eq_nil_iff] at hmapnil
  exact h hmapnil

/-! ## Structural lemmas about MMR selection -/

/-- The running best of the inner MMR loop is the seed or one of the
scanned indices. -/
theorem pickBestAux_mem (f : ℕ → ℚ) :
    ∀ (u : List ℕ) (b : ℕ) (s : ℚ), pickBestAux f u b s ∈ b :: u := by
  intro u
  induction u with
  | nil => intro b s; simp [pickBestAux]
  | cons i is ih =>
    intro b s
    simp only [pickBestAux]
    by_cases hlt : s < f i
    · rw [if_pos hlt]
      exact List.mem_cons.2 (Or.inr (ih i (f i)))
    · rw [if_neg hlt]
      rcases List.mem_cons.1 (ih b s) with h | h
      · rw [h]; exact List.mem_cons_self b (i :: is)
      · exact List.mem_cons.2 (Or.inr (List.mem_cons.2 (Or.inr h)))

/-- A selected best index always belongs to the unused set. -/
theorem pickBest_mem (f : ℕ → ℚ) (u : List ℕ) (i : ℕ)
    (h : pickBest f u = some i) : i ∈ u := by
  cases u with
  | nil => exact absurd h (by simp [pickBest])
  | cons j js =>
    simp only [pickBest, Option.some.injEq] at h
    exact h ▸ pickBestAux_mem f js j (f j)

/-- The MMR loop only extends the accumulated selection. -/
theorem mmrLoop_acc (lambda : ℚ) (rel : ℕ → ℚ) (sim : ℕ → ℕ → ℚ) :
    ∀ (fuel : ℕ) (sel u : List ℕ),
      ∃ t, mmrLoop lambda rel sim fuel sel u = sel ++ t := by
  intro fuel
  induction fuel with
  | zero => intro sel u; exact ⟨[], by rw [List.append_nil]; rfl⟩
  | succ m ih =>
    intro sel u
    simp only [mmrLoop]
    cases hpb : pickBest (mmrScore lambda rel sim sel) u with
    | none => exact ⟨[], by rw [List.append_nil]⟩
    | some b =>
      rcases ih (sel ++ [b]) (u.erase b) with ⟨t, ht⟩
      refine ⟨b :: t, ?_⟩
      show mmrLoop lambda rel sim m (sel ++ [b]) (u.erase b) = sel ++ b :: t
      rw [ht, List.append_assoc]
      rfl

/-- Everything the MMR loop returns is accumulated or was unused. -/
theorem mmrLoop_subset (lambda : ℚ) (rel : ℕ → ℚ) (sim : ℕ → ℕ → ℚ) :
    ∀ (fuel : ℕ) (sel u : List ℕ) (j : ℕ),
      j ∈ mmrLoop lambda rel sim fuel sel u → j ∈ sel ∨ j ∈ u := by
  intro fuel
  induction fuel with
  | zero => intro sel u j hj; exact Or.inl hj
  | succ m ih =>
    intro sel u j hj
    simp only [mmrLoop] at hj
    cases hpb : pickBest (mmrScore lambda rel sim sel) u with
    | none =>
      rw [hpb] at hj
      exact Or.inl hj
    | some b =>
      rw [hpb] at hj
      rcases ih (sel ++ [b]) (u.erase b) j hj with hsel | herase
      · rcases List.mem_append.1 hsel with h | h
        · exact Or.inl h
        · exact Or.inr (List.mem_singleton.1 h ▸ pickBest_mem _ _ _ hpb)
      · exact Or.inr (List.mem_of_mem_erase herase)

/-- MMR selection of a positive quota from a non-empty candidate set
selects at least one index. -/
theorem mmr_ne_nil (sq : ℚ → ℚ) (cands : List (List ℚ)) (qe : List ℚ)
    (lambda : ℚ) (k : ℕ) (hk : 0 < k) (hc : cands ≠ []) :
    maximalMarginalRelevance sq cands qe lambda k ≠ [] := by
  simp only [maximalMarginalRelevance]
  have hn : 0 < cands.length := List.length_pos.2 hc
  obtain ⟨m, hm⟩ : ∃ m, min k cands.length = m + 1 := by
    have := lt_min hk hn
    exact ⟨min k cands.length - 1, by omega⟩
  rw [hm]
  have hrne : List.range cands.length ≠ [] :=
    List.ne_nil_of_length_pos (by simpa using hn)
  obtain ⟨i, is, hrange⟩ := List.exists_cons_of_ne_nil hrne
  rw [hrange]
  simp only [mmrLoop, pickBest]
  rcases mmrLoop_acc _ _ _ m _ _ with ⟨t, ht⟩
  rw [ht]
  simp

/-- Every index MMR selects is a valid candidate index. -/
theorem mmr_subset (sq : ℚ → ℚ) (cands : List (List ℚ)) (qe : List ℚ)
    (lambda : ℚ) (k : ℕ) (j : ℕ)
    (hj : j ∈ maximalMarginalRelevance sq cands qe lambda k) :
    j < cands.length := by
  simp only [maximalMarginalRelevance] at hj
  rcases mmrLoop_subset _ _ _ _ _ _ _ hj with h | h
  · exact absurd h (List.not_mem_nil j)
  · exact List.mem_range.1 h

/-- Indexing a list by a non-empty set of valid indices yields at least one
result. -/
theorem filterMap_get?_ne_nil (l : List SearchResult) (idxs : List ℕ)
    (h : idxs ≠ []) (hall : ∀ j ∈ idxs, j < l.length) :
    idxs.filterMap (fun i => l.get? i) ≠ [] := by
  rcases List.exists_cons_of_ne_nil h with ⟨j, js, rfl⟩
  have hj : j < l.length := hall j (List.mem_cons_self j js)
  simp only [List.filterMap_cons]
  rw [List.get?_eq_get hj]
  exact List.cons_ne_nil _ _

/-! ## Threshold-stage lemmas -/

/-- The JS `||` default is always positive for a positive default. -/
theorem jsOr_pos (n : Option ℕ) : 0 < jsOr n 10 := by
  cases n with
  | none => simp [jsOr]
  | some m =>
    by_cases hm : m = 0
    · simp [jsOr, hm]
    · simp [jsOr, hm]
      omega

/-- When every threshold in the ladder filters everything out, the ladder
walk ends with the (empty) last filtering. -/
theorem ladderLoop_all_empty (vrs : List VectorResult) (m : ℕ) (hm : 0 < m) :
    ∀ (ts : List ℚ) (cur : List VectorResult),
      (∀ t ∈ ts, firstFilter vrs t = []) → cur = [] →
      ladderLoop vrs m ts cur = [] := by
  intro ts
  induction ts with
  | nil => intro cur _ hcur; exact hcur
  | cons t ts ih =>
    intro cur hts _
    simp only [ladderLoop]
    have hft : firstFilter vrs t = [] := hts t (List.mem_cons_self t ts)
    rw [hft]
    rw [if_neg (by simpa using Nat.not_le.2 hm)]
    exact ih [] (fun t' ht' => hts t' (List.mem_cons.2 (Or.inr ht'))) rfl

/-- The `if filtered.length = 0` fallback of the thresholding stage keeps
its result non-empty whenever the raw candidate list is non-empty. -/
theorem ite_take_ne_nil (F vrs : List VectorResult) (b : ℕ) (hb : 0 < b)
    (h : vrs ≠ []) :
    (if F.length = 0 then vrs.take b else F) ≠ [] := by
  split
  · rcases List.exists_cons_of_ne_nil h with ⟨x, xs, rfl⟩
    obtain ⟨m, hm⟩ : ∃ m, b = m + 1 := ⟨b - 1, by omega⟩
    rw [hm]
    simp [List.take]
  · next hne =>
    intro habs
    rw [habs] at hne
    simp at hne

/-- The thresholding stage never returns an empty list on a non-empty
candidate set. -/
theorem thresholdStage_ne_nil (vrs : List VectorResult) (input : SearchInput)
    (h : vrs ≠ []) : thresholdStage vrs input ≠ [] := by
  simp only [thresholdStage]
  exact ite_take_ne_nil _ vrs _ (jsOr_pos input.maxResults) h

/-- If no threshold in the ladder (the requested one and every fallback)
admits any candidate, the thresholding stage falls back to the top
`baseMaxResults` raw candidates. -/
theorem thresholdStage_fallback (vrs : List VectorResult) (input : SearchInput)
    (hfirst : firstFilter vrs (input.threshold.getD (7 / 10)) = [])
    (hladder : ∀ t ∈ fallbackThresholds, firstFilter vrs t = []) :
    thresholdStage vrs input = vrs.take (jsOr input.maxResults 10) := by
  have hm : 0 < min (max 1 (input.minResults.getD 5)) (jsOr input.maxResults 10) :=
    lt_min (by omega) (jsOr_pos input.maxResults)
  simp only [thresholdStage, hfirst]
  by_cases hcond : input.lowerThresholdOnFewResults ≠ some false ∧
      ([] : List VectorResult).length < max 1 (input.minResults.getD 5)
  · rw [if_pos hcond, ladderLoop_all_empty vrs _ hm fallbackThresholds [] hladder rfl]
    simp
  · rw [if_neg hcond]
    simp

/-! ## C4: non-empty candidate sets yield non-empty rankings -/

/-- C4: for every non-empty candidate set, the ranking stage returns a
non-empty result list, in both the MMR path and the heuristic fallback
path; and when no threshold in the descending ladder admits any candidate,
the stage accepts the top `baseMaxResults` candidates by raw order
regardless of threshold. -/
theorem C4_nonempty_results (sq : ℚ → ℚ) (vrs : List VectorResult)
    (input : SearchInput) (qe : List ℚ) (h : vrs ≠ []) :
    searchRank sq vrs input qe ≠ []
    ∧ (firstFilter vrs (input.threshold.getD (7 / 10)) = [] →
        (∀ t ∈ fallbackThresholds, firstFilter vrs t = []) →
        thresholdStage vrs input = vrs.take (jsOr input.maxResults 10)) := by
  refine ⟨?_, fun hfirst hladder => thresholdStage_fallback vrs input hfirst hladder⟩
  have hts : thresholdStage vrs input ≠ [] := thresholdStage_ne_nil vrs input h
  have hlen : 0 < (thresholdStage vrs input).length := List.length_pos.2 hts
  simp only [searchRank]
  split
  · refine filterMap_get?_ne_nil _ _ ?_ ?_
    · refine mmr_ne_nil sq _ qe _ _ ?_ ?_
      · simp only [convertToSearchResults, List.length_map]
        exact lt_min (jsOr_pos input.maxResults) hlen
      · intro habs
        rw [List.map_eq_nil_iff] at habs
        exact hts habs
    · intro j hj
      have := mmr_subset sq _ qe _ _ j hj
      rw [List.length_map] at this
      simpa [convertToSearchResults, List.length_map] using this
  · exact rankAndDiversify_ne_nil _ _ (by
      intro habs
      rw [show convertToSearchResults (thresholdStage vrs input) =
        List.map convertOne (thresholdStage vrs input) from rfl, List.map_eq_nil_iff] at habs
      exact hts habs)

/-- Witness for C4 on a single 0.8-scoring candidate. -/
theorem C4_nonempty_results_witness :
    searchRank (fun x => x) [mkVR (4 / 5) (mkMeta "" "A" none)] { query := "q" } [] ≠ []
    ∧ (firstFilter [mkVR (4 / 5) (mkMeta "" "A" none)]
        (({ query := "q" } : SearchInput).threshold.getD (7 / 10)) = [] →
        (∀ t ∈ fallbackThresholds,
          firstFilter [mkVR (4 / 5) (mkMeta "" "A" none)] t = []) →
        thresholdStage [mkVR (4 / 5) (mkMeta "" "A" none)] { query := "q" } =
          [mkVR (4 / 5) (mkMeta "" "A" none)].take
            (jsOr ({ query := "q" } : SearchInput).maxResults 10)) :=
  C4_nonempty_results (fun x => x) [mkVR (4 / 5) (mkMeta "" "A" none)]
    { query := "q" } [] (by simp)

/-! ## C8: displayed scores are the raw post-threshold scores -/

/-- C8: every result returned by the ranking core is the conversion of one
of the post-threshold candidates, so its reported score is that candidate's
raw similarity score; neither MMR selection nor the heuristic adjusted
re-scoring changes a displayed score — they affect only membership and
order. -/
theorem C8_scores_are_raw (sq : ℚ → ℚ) (vrs : List VectorResult)
    (input : SearchInput) (qe : List ℚ) (r : SearchResult)
    (hr : r ∈ searchRank sq vrs input qe) :
    ∃ v ∈ thresholdStage vrs input, r = convertOne v ∧ r.score = v.score := by
  simp only [searchRank] at hr
  have hconv : ∀ r', r' ∈ convertToSearchResults (thresholdStage vrs input) →
      ∃ v ∈ thresholdStage vrs input, r' = convertOne v ∧ r'.score = v.score := by
    intro r' hr'
    rcases List.mem_map.1 hr' with ⟨v, hv, hvr⟩
    exact ⟨v, hv, hvr.symm, by rw [← hvr]; rfl⟩
  split at hr
  · rcases List.mem_filterMap.1 hr with ⟨i, _, hget⟩
    exact hconv r (List.get?_mem hget)
  · exact hconv r (rankAndDiversify_subset _ _ r hr)

/-- Witness for C8 on the MMR path with one candidate. -/
theorem C8_scores_are_raw_witness :
    ∃ v ∈ thresholdStage [c8v] { query := "q" },
      convertOne c8v = convertOne v ∧ (convertOne c8v).score = v.score := by
  have hts : thresholdStage [c8v] { query := "q" } = [c8v] := by
    simp only [thresholdStage]
    norm_num [firstFilter, jsOr, ladderLoop, fallbackThresholds, c8v, mkMeta, List.filter]
  have hall : searchRank (fun x => x) [c8v] { query := "q" } [1] = [convertOne c8v] := by
    simp only [searchRank]
    rw [hts]
    rfl
  exact C8_scores_are_raw (fun x => x) [c8v] { query := "q" } [1] (convertOne c8v)
    (by rw [hall]; exact List.mem_singleton.2 rfl)

/-! ## C6: MMR with `λ = 1` degenerates to pure descending-relevance order -/

/-- The relation `relOrder` is reflexive. -/
theorem relOrder_refl (f : ℕ → ℚ) (i : ℕ) : relOrder f i i :=
  Or.inr ⟨rfl, le_refl i⟩

/-- The relation `relOrder` is transitive. -/
theorem relOrder_trans (f : ℕ → ℚ) {i j k : ℕ}
    (h1 : relOrder f i j) (h2 : relOrder f j k) : relOrder f i k := by
  rcases h1 with h1 | ⟨e1, l1⟩ <;> rcases h2 with h2 | ⟨e2, l2⟩
  · exact Or.inl (lt_trans h2 h1)
  · exact Or.inl (by rw [← e2]; exact h1)
  · exact Or.inl (by rw [e1]; exact h2)
  · exact Or.inr ⟨e1.trans e2, le_trans l1 l2⟩

/-- The relation `relOrder` is antisymmetric. -/
theorem relOrder_antisymm (f : ℕ → ℚ) {i j : ℕ}
    (h1 : relOrder f i j) (h2 : relOrder f j i) : i = j := by
  rcases h1 with h1 | ⟨e1, l1⟩ <;> rcases h2 with h2 | ⟨e2, l2⟩
  · exact absurd h1 (not_lt.2 (le_of_lt h2))
  · exact absurd h1 (by rw [e2]; exact lt_irrefl _)
  · exact absurd h2 (by rw [e1]; exact lt_irrefl _)
  · exact le_antisymm l1 l2

/-- The relation `relOrder` is total. -/
theorem relOrder_total (f : ℕ → ℚ) (i j : ℕ) : relOrder f i j ∨ relOrder f j i := by
  rcases lt_trichotomy (f i) (f j) with h | h | h
  · exact Or.inr (Or.inl h)
  · rcases le_total i j with hij | hij
    · exact Or.inl (Or.inr ⟨h, hij⟩)
    · exact Or.inr (Or.inr ⟨h.symm, hij⟩)
  · exact Or.inl (Or.inl h)

instance relOrder_isTotal (f : ℕ → ℚ) : IsTotal ℕ (relOrder f) :=
  ⟨relOrder_total f⟩

instance relOrder_isTrans (f : ℕ → ℚ) : IsTrans ℕ (relOrder f) :=
  ⟨fun _ _ _ => relOrder_trans f⟩

instance relOrder_isAntisymm (f : ℕ → ℚ) : IsAntisymm ℕ (relOrder f) :=
  ⟨fun _ _ => relOrder_antisymm f⟩

/-- On a strictly ascending index list, the first-strict-maximum scan of the
inner MMR loop returns the `relOrder`-least element: highest score, lowest
index among ties (earlier elements never tie with the running best without
being displaced strictly). -/
theorem pickBestAux_min (f : ℕ → ℚ) :
    ∀ (u : List ℕ) (b : ℕ), List.Sorted (· < ·) (b :: u) →
      ∀ x ∈ b :: u, relOrder f (pickBestAux f u b (f b)) x := by
  intro u
  induction u with
  | nil =>
    intro b _ x hx
    rw [List.mem_singleton.1 hx]
    exact relOrder_refl f (pickBestAux f [] b (f b))
  | cons i is ih =>
    intro b hsort x hx
    have hsort_i : List.Sorted (· < ·) (i :: is) := hsort.of_cons
    have hbi : b < i := List.rel_of_sorted_cons hsort i (List.mem_cons_self i is)
    simp only [pickBestAux]
    by_cases hlt : f b < f i
    · rw [if_pos hlt]
      have ihi := ih i hsort_i
      rcases List.mem_cons.1 hx with rfl | hx'
      · have h1 : relOrder f (pickBestAux f is i (f i)) i := ihi i (List.mem_cons_self i is)
        have h2 : f i ≤ f (pickBestAux f is i (f i)) := by
          rcases h1 with h | ⟨heq, _⟩
          · exact le_of_lt h
          · exact le_of_eq heq.symm
        exact Or.inl (lt_of_lt_of_le hlt h2)
      · exact ihi x hx'
    · rw [if_neg hlt]
      have hsort_bis : List.Sorted (· < ·) (b :: is) := by
        refine List.Pairwise.sublist ?_ hsort
        exact List.Sublist.cons₂ b (List.sublist_cons_self i is)
      have ihb := ih b hsort_bis
      have hfi : f i ≤ f b := not_lt.1 hlt
      rcases List.mem_cons.1 hx with rfl | hx'
      · exact ihb x (List.mem_cons_self x is)
      rcases List.mem_cons.1 hx' with rfl | hx''
      · have h1 : relOrder f (pickBestAux f is b (f b)) b := ihb b (List.mem_cons_self b is)
        rcases h1 with h | ⟨heq, hle⟩
        · exact Or.inl (lt_of_le_of_lt hfi h)
        · by_cases hlt2 : f x < f (pickBestAux f is b (f b))
          · exact Or.inl hlt2
          · have hxe : f (pickBestAux f is b (f b)) = f x := by
              refine le_antisymm (not_lt.1 hlt2) ?_
              rw [heq]
              exact hfi
            exact Or.inr ⟨hxe, le_of_lt (lt_of_le_of_lt hle hbi)⟩
      · exact ihb x (List.mem_cons.2 (Or.inr hx''))

/-- The `relOrder` insertion sort of a strictly ascending index list starts
with the index the MMR scan picks, followed by the sort of the rest. -/
theorem insertionSort_relOrder_cons (f : ℕ → ℚ) (i : ℕ) (is : List ℕ)
    (hu : List.Sorted (· < ·) (i :: is)) :
    List.insertionSort (relOrder f) (i :: is) =
      pickBestAux f is i (f i) ::
        List.insertionSort (relOrder f) ((i :: is).erase (pickBestAux f is i (f i))) := by
  have hpbmem : pickBestAux f is i (f i) ∈ i :: is := pickBestAux_mem f is i (f i)
  have hpbmin : ∀ x ∈ i :: is, relOrder f (pickBestAux f is i (f i)) x :=
    pickBestAux_min f is i hu
  have hperm : List.Perm (List.insertionSort (relOrder f) (i :: is)) (i :: is) :=
    List.perm_insertionSort _ _
  have hsorted : List.Sorted (relOrder f) (List.insertionSort (relOrder f) (i :: is)) :=
    List.sorted_insertionSort _ _
  have hne : List.insertionSort (relOrder f) (i :: is) ≠ [] := by
    intro habs
    rw [habs] at hperm
    exact List.cons_ne_nil i is (List.perm_nil.1 hperm.symm)
  obtain ⟨h, t, hht⟩ := List.exists_cons_of_ne_nil hne
  have hhmem : h ∈ i :: is := by
    refine hperm.mem_iff.1 ?_
    rw [hht]
    exact List.mem_cons_self h t
  have hpb_in_sorted : pickBestAux f is i (f i) ∈ h :: t := by
    rw [← hht]
    exact hperm.mem_iff.2 hpbmem
  have hhpb : h = pickBestAux f is i (f i) := by
    have h1 : relOrder f (pickBestAux f is i (f i)) h := hpbmin h hhmem
    rcases List.mem_cons.1 hpb_in_sorted with heq | hpbt
    · exact heq.symm
    · have h2 : relOrder f h (pickBestAux f is i (f i)) := by
        have hs : List.Sorted (relOrder f) (h :: t) := hht ▸ hsorted
        exact List.rel_of_sorted_cons hs _ hpbt
      exact relOrder_antisymm f h2 h1
  have htperm : List.Perm t ((i :: is).erase (pickBestAux f is i (f i))) := by
    have hp := hperm.erase (pickBestAux f is i (f i))
    rw [hht, hhpb] at hp
    rwa [List.erase_cons_head] at hp
  have htsorted : List.Sorted (relOrder f) t := by
    have hs : List.Sorted (relOrder f) (h :: t) := hht ▸ hsorted
    exact hs.of_cons
  have hteq : t = List.insertionSort (relOrder f)
      ((i :: is).erase (pickBestAux f is i (f i))) := by
    refine List.eq_of_perm_of_sorted ?_ htsorted (List.sorted_insertionSort _ _)
    exact htperm.trans (List.perm_insertionSort _ _).symm
  rw [hht, hhpb, hteq]

/-- With `λ = 1` the MMR objective is the relevance score itself (the
redundancy term is multiplied by `1 − 1 = 0`). -/
theorem mmrScore_one (rel : ℕ → ℚ) (sim : ℕ → ℕ → ℚ) (selected : List ℕ) (i : ℕ) :
    mmrScore 1 rel sim selected i = rel i := by
  simp only [mmrScore]
  ring

/-- The inner scan depends only on the values of its score function. -/
theorem pickBestAux_congr (f g : ℕ → ℚ) (h : ∀ x, g x = f x) :
    ∀ (u : List ℕ) (b : ℕ) (s : ℚ), pickBestAux g u b s = pickBestAux f u b s := by
  intro u
  induction u with
  | nil => intro b s; rfl
  | cons i is ih =>
    intro b s
    simp only [pickBestAux, h i]
    by_cases hlt : s < f i
    · rw [if_pos hlt, if_pos hlt, ih]
    · rw [if_neg hlt, if_neg hlt, ih]

/-- The scan `pickBest` depends only on the values of its score function. -/
theorem pickBest_congr (f g : ℕ → ℚ) (h : ∀ x, g x = f x) (u : List ℕ) :
    pickBest g u = pickBest f u := by
  cases u with
  | nil => rfl
  | cons j js =>
    simp only [pickBest, pickBestAux_congr f g h, h j]

/-- At `λ = 1` the MMR loop is accumulator-independent: the selection made
so far never influences later picks. -/
theorem mmrLoop_one_acc (rel : ℕ → ℚ) (sim : ℕ → ℕ → ℚ) :
    ∀ (fuel : ℕ) (sel u : List ℕ),
      mmrLoop 1 rel sim fuel sel u = sel ++ mmrLoop 1 rel sim fuel [] u := by
  intro fuel
  induction fuel with
  | zero => intro sel u; simp [mmrLoop]
  | succ m ih =>
    intro sel u
    have hps : pickBest (mmrScore 1 rel sim sel) u = pickBest rel u :=
      pickBest_congr rel _ (fun x => mmrScore_one rel sim sel x) u
    have hp0 : pickBest (mmrScore 1 rel sim []) u = pickBest rel u :=
      pickBest_congr rel _ (fun x => mmrScore_one rel sim [] x) u
    simp only [mmrLoop, hps, hp0]
    cases hpb : pickBest rel u with
    | none => simp
    | some b =>
      show mmrLoop 1 rel sim m (sel ++ [b]) (u.erase b) =
        sel ++ mmrLoop 1 rel sim m ([] ++ [b]) (u.erase b)
      rw [ih (sel ++ [b]) (u.erase b), ih ([] ++ [b]) (u.erase b)]
      simp

/-- Erasing preserves strict ascending sortedness. -/
theorem sorted_lt_erase (u : List ℕ) (a : ℕ) (h : List.Sorted (· < ·) u) :
    List.Sorted (· < ·) (u.erase a) :=
  List.Pairwise.sublist (List.erase_sublist a u) h

/-- At `λ = 1`, the MMR loop on a strictly ascending unused list produces
exactly the first `fuel` entries of the `relOrder` insertion sort. -/
theorem mmrLoop_one_eq_sort (rel : ℕ → ℚ) (sim : ℕ → ℕ → ℚ) :
    ∀ (fuel : ℕ) (u : List ℕ), List.Sorted (· < ·) u →
      mmrLoop 1 rel sim fuel [] u = (List.insertionSort (relOrder rel) u).take fuel := by
  intro fuel
  induction fuel with
  | zero => intro u _; simp [mmrLoop]
  | succ m ih =>
    intro u hu
    cases u with
    | nil => simp [mmrLoop, pickBest]
    | cons i is =>
      have hpb : pickBest (mmrScore 1 rel sim []) (i :: is) =
          some (pickBestAux rel is i (rel i)) := by
        rw [pickBest_congr rel _ (fun x => mmrScore_one rel sim [] x) (i :: is)]
        rfl
      have hsort_er : List.Sorted (· < ·) ((i :: is).erase (pickBestAux rel is i (rel i))) :=
        sorted_lt_erase _ _ hu
      simp only [mmrLoop, hpb]
      show mmrLoop 1 rel sim m ([] ++ [pickBestAux rel is i (rel i)])
          ((i :: is).erase (pickBestAux rel is i (rel i))) = _
      rw [mmrLoop_one_acc rel sim m _ _, ih _ hsort_er,
        insertionSort_relOrder_cons rel i is hu]
      simp [List.take_succ_cons]

/-- C6: with diversity coefficient `λ = 1`, MMR selection returns the first
`k` candidate indices in pure descending order of cosine relevance to the
query vector, stable by original candidate index on ties — exactly the
spec-side `relevanceOrder` sort, truncated to `k`. -/
theorem C6_mmr_lambda_one_pure_relevance (sq : ℚ → ℚ) (candidates : List (List ℚ))
    (query : List ℚ) (k : ℕ) :
    maximalMarginalRelevance sq candidates query 1 k =
      (relevanceOrder (candidates.map (fun v => cosine sq v query))).take k := by
  simp only [maximalMarginalRelevance, relevanceOrder, List.length_map]
  rw [mmrLoop_one_eq_sort _ _ (min k candidates.length) (List.range candidates.length)
    (List.sorted_lt_range _)]
  have hlen : (List.insertionSort
      (relOrder fun i => (candidates.map (fun v => cosine sq v query)).getD i 0)
      (List.range candidates.length)).length = candidates.length := by
    rw [(List.perm_insertionSort _ _).length_eq, List.length_range]
  rcases le_total k candidates.length with hk | hk
  · rw [min_eq_left hk]
  · rw [min_eq_right hk, List.take_of_length_le (le_of_eq hlen),
      List.take_of_length_le (by rw [hlen]; exact hk)]
